import Mathlib

/-!
Verification of the directory-hierarchy aggregation and flow-graph
construction module of `damply` (`src/damply/plot.py`) against its
natural-language specification.

Paths are modelled as lists of path segments: the absolute path `/a/b`
is `["a", "b"]` and the filesystem root `/` is `[]`.  `Path(...)` values
that may be relative (only `Path(".")`, which arises from
`os.path.commonprefix` on an empty list) are modelled by `PyPath`,
which carries the absoluteness flag.  Sizes are integers.
-/

namespace Damply

/-- An absolute directory path, as its list of segments (`/a/b` = `["a","b"]`,
`/` = `[]`). -/
abbrev DPath := List String

/-- `pathlib` parent: drop the last segment; the parent of `/` is `/` itself
(and the parent of `.` is `.`, see `parentPy`). -/
def parentOf (p : DPath) : DPath := p.dropLast

/-- `pathlib` `.name`: the last segment, `""` for the root. -/
def nameOf (p : DPath) : String := p.getLastD ""

/-- `Directory` dataclass of plot.py: a directory path and its `size_GB`.
The derived field `parent` is `parentOf directory`. -/
structure Directory where
  directory : DPath
  size_GB : Int
deriving DecidableEq, Repr

/-- A `pathlib.Path` value that may be relative: `Path("/")` is
`⟨true, []⟩`, `Path(".")` is `⟨false, []⟩`. -/
structure PyPath where
  absolute : Bool
  segs : List String
deriving DecidableEq, Repr

/-- `str(path)` for an absolute path: `"/"` for the root, otherwise the
segments joined by `/` with a leading `/`. -/
def pyStr (p : DPath) : String :=
  if p = [] then "/" else p.foldl (fun acc seg => acc ++ "/" ++ seg) ""

/-- Longest common prefix of two character lists. -/
def lcp : List Char → List Char → List Char
  | a :: as, b :: bs => if a = b then a :: lcp as bs else []
  | _, _ => []

/-- `os.path.commonprefix`: the longest common character-level prefix of
the strings; `""` on an empty list. -/
def commonPrefixOf : List String → String
  | [] => ""
  | s :: rest => ⟨rest.foldl (fun acc t => lcp acc t.data) s.data⟩

/-- Split a character list on `'/'` (the behaviour of `str.split("/")`):
`"/a/b"` gives `["", "a", "b"]`. -/
def splitSegsAux : List Char → List Char → List String
  | [], cur => [⟨cur.reverse⟩]
  | c :: cs, cur => if c = '/' then ⟨cur.reverse⟩ :: splitSegsAux cs [] else splitSegsAux cs (c :: cur)

/-- `pathlib.Path(s)`: absolute iff the string starts with `'/'`; the
segments are the `/`-separated components with empty components and `"."`
collapsed. -/
def pyParse (s : String) : PyPath :=
  ⟨(match s.data with | '/' :: _ => true | _ => false),
   (splitSegsAux s.data []).filter (fun t => !(t == "" || t == "."))⟩

/-- `DirectoryList.get_common_root`:
`Path(os.path.commonprefix([str(d.directory) for d in directories]))`. -/
def get_common_root (dirs : List Directory) : PyPath :=
  pyParse (commonPrefixOf (dirs.map (fun d => pyStr d.directory)))

/-- The segment list of the common root (the form in which the rest of the
pipeline consumes it; for every nonempty input the common root is absolute). -/
def rootSegs (dirs : List Directory) : DPath :=
  (get_common_root dirs).segs

/-- `pathlib` parent on possibly-relative paths: both `Path("/")` and
`Path(".")` are their own parent. -/
def parentPy (p : PyPath) : PyPath :=
  if p.segs = [] then p else ⟨p.absolute, p.segs.dropLast⟩

/-- The `while path != Path("/")` loop of `permutate_path`, with explicit
fuel; `none` models a computation that has not terminated within `fuel`
iterations. -/
def permutate_loop : Nat → PyPath → Option (List PyPath)
  | 0, p => if p = ⟨true, []⟩ then some [] else none
  | n + 1, p =>
    if p = ⟨true, []⟩ then some []
    else (permutate_loop n (parentPy p)).map (p :: ·)

/-- `permutate_path` on an absolute path, where the loop terminates: the
path followed by all its proper ancestors, excluding the filesystem root. -/
def permutate_go : Nat → DPath → List DPath
  | 0, _ => []
  | n + 1, p => if p = [] then [] else p :: permutate_go n (parentOf p)

def permutate_path (p : DPath) : List DPath := permutate_go p.length p

/-- Strict lexicographic comparison of segment lists by string order;
this is how Python compares `Path` values (tuple comparison of parts). -/
def charListLt : List Char → List Char → Bool
  | [], [] => false
  | [], _ :: _ => true
  | _ :: _, [] => false
  | a :: as, b :: bs => if a < b then true else if b < a then false else charListLt as bs

def strLt (a b : String) : Bool := charListLt a.data b.data

def lexLt : List String → List String → Bool
  | [], [] => false
  | [], _ :: _ => true
  | _ :: _, [] => false
  | a :: as, b :: bs => if strLt a b then true else if strLt b a then false else lexLt as bs

/-- The sort key of `generate_node_list`: number of parts ascending, then
path ascending.  (All nodes are absolute, so `len(x.parts)` is the segment
count plus one; the `+1` does not affect the order.) -/
def nodeLe (a b : DPath) : Prop :=
  a.length < b.length ∨ (a.length = b.length ∧ (lexLt a b = true ∨ a = b))

instance : DecidableRel nodeLe := fun a b => by
  unfold nodeLe; infer_instance

/-- `generate_node_list`: the union of the ancestor expansions of the
common root and of every directory, deduplicated and sorted by
`(len(parts), path)`.  (Python sorts the deduplicated set with a stable
sort; since the sort key is injective on distinct paths, any sorted
arrangement is the same list.) -/
def generate_node_list (dirs : List Directory) : List DPath :=
  let nodes := (permutate_path (rootSegs dirs) ++
    dirs.flatMap (fun d => permutate_path d.directory)).dedup
  List.insertionSort nodeLe nodes

/-- `list.index`: position of the first occurrence; `none` models the
`ValueError` raised when the element is absent. -/
def indexOfP (p : DPath) : List DPath → Option Nat
  | [] => none
  | q :: rest => if q = p then some 0 else (indexOfP p rest).map (· + 1)

/-- A sankey link `{"source": ..., "target": ..., "value": ...}`. -/
structure Link where
  source : Nat
  target : Nat
  value : Int
deriving DecidableEq, Repr

/-- `dirlist.dir_size_dict().get(p, 0)`: the dict comprehension lets a
later entry overwrite an earlier one with the same path, so this is the
size of the last matching entry, defaulting to `0`. -/
def dir_size_dict_get (ds : List Directory) (p : DPath) : Int :=
  (ds.foldl (fun acc d => if d.directory = p then some d.size_GB else acc) none).getD 0

/-- `sum(child.size_GB for child in ds if child.parent == n)`. -/
def childSum (ds : List Directory) (n : DPath) : Int :=
  ((ds.filter (fun d => parentOf d.directory == n)).map (·.size_GB)).sum

/-- The label loop of `main` (lines 135-147): walks the node list in
order; a node whose looked-up size is `0` gets the sum of the sizes of
its children among the current `dirlist` and is appended to the
`dirlist`.  Returns the final `dirlist` and the `(label, size)` pairs. -/
def aggGo : List DPath → List Directory → List Directory × List (String × Int)
  | [], ds => (ds, [])
  | n :: rest, ds =>
    let size := dir_size_dict_get ds n
    if size = 0 then
      let s := childSum ds n
      let r := aggGo rest (ds ++ [⟨n, s⟩])
      (r.1, (nameOf n, s) :: r.2)
    else
      let r := aggGo rest ds
      (r.1, (nameOf n, size) :: r.2)

/-- The size the label loop assigns to a node, in terms of the original
directory list (see `aggGo_spec`). -/
def resolvedSize (ds : List Directory) (n : DPath) : Int :=
  if dir_size_dict_get ds n = 0 then childSum ds n else dir_size_dict_get ds n

/-- The first link loop of `main` (lines 129-133): one link per measured
directory, from the index of its parent to its own index, valued by its
input size.  A failed `list.index` is the `ValueError` of the source. -/
def build_links (nodes : List DPath) : List Directory → Except String (List Link)
  | [] => .ok []
  | d :: rest =>
    match indexOfP d.directory nodes, indexOfP (parentOf d.directory) nodes with
    | some t, some s => (build_links nodes rest).map (⟨s, t, d.size_GB⟩ :: ·)
    | _, _ => .error "ValueError: not in list"

/-- The second link loop of `main` (lines 161-165): one link per node
whose parent is the common root, valued by the node's size in the
(already mutated) `dirlist`. -/
def build_root_links (nodes : List DPath) (dsF : List Directory) (root : DPath) :
    List DPath → Except String (List Link)
  | [] => .ok []
  | n :: rest =>
    match indexOfP n nodes, indexOfP root nodes with
    | some t, some s =>
      (build_root_links nodes dsF root rest).map (⟨s, t, dir_size_dict_get dsF n⟩ :: ·)
    | _, _ => .error "ValueError: not in list"

/-- What `main` hands to the renderer: the ordered node list, the
`(label, size)` pairs, and the links. -/
structure Output where
  nodes : List DPath
  labels : List (String × Int)
  links : List Link
deriving DecidableEq, Repr

/-- `main` of plot.py from the point where the `DirectoryList` is built
(line 121) to the figure data (line 173): node list, first link loop,
label/size loop, root links, and the final overwrite of the common
root's label with the sum of its direct children's sizes. -/
def main (dirs : List Directory) : Except String Output :=
  let root := rootSegs dirs
  let nodes := generate_node_list dirs
  match build_links nodes dirs with
  | .error e => .error e
  | .ok links1 =>
    let agg := aggGo nodes dirs
    let rootChildren := nodes.filter (fun n => parentOf n == root)
    let common_root_size := childSum agg.1 root
    match build_root_links nodes agg.1 root rootChildren with
    | .error e => .error e
    | .ok links2 =>
      match indexOfP root nodes with
      | none => .error "ValueError: not in list"
      | some cri =>
        .ok ⟨nodes, agg.2.set cri (pyStr root, common_root_size), links1 ++ links2⟩

/-- The links of a successful run. -/
def mainLinks (dirs : List Directory) : Option (List Link) :=
  match main dirs with
  | .error _ => none
  | .ok out => some out.links

/-- The size displayed for path `p` in the final labels of a successful
run. -/
def displayed (dirs : List Directory) (p : DPath) : Option Int :=
  match main dirs with
  | .error _ => none
  | .ok out =>
    match indexOfP p out.nodes with
    | none => none
    | some i => (out.labels[i]?).map (·.2)

/-- Whether a computation aborted with an exception. -/
def isError {α : Type _} : Except String α → Bool
  | .error _ => true
  | .ok _ => false

/-! ### Prefix helpers -/

theorem take_isPre {α : Type _} (n : Nat) (l : List α) : l.take n <+: l :=
  ⟨l.drop n, List.take_append_drop n l⟩

theorem dropLast_isPre {α : Type _} (l : List α) : l.dropLast <+: l := by
  rw [List.dropLast_eq_take]
  exact take_isPre _ _

theorem pre_dropLast_of_ne {α : Type _} {x p : List α} (hx : x <+: p) (hne : x ≠ p) :
    x <+: p.dropLast := by
  have hlt : x.length < p.length :=
    lt_of_le_of_ne hx.length_le (fun h => hne (hx.eq_of_length h))
  have hxeq : x = p.take x.length := List.prefix_iff_eq_take.mp hx
  rw [List.dropLast_eq_take, List.prefix_iff_eq_take, List.take_take]
  have hmin : min x.length (p.length - 1) = x.length := by omega
  rw [hmin]
  exact hxeq

/-! ### permutate_path: the ancestor expansion yields exactly the nonempty
prefixes of the path -/

theorem mem_permutate_go :
    ∀ (fuel : Nat) (p x : DPath), p.length ≤ fuel →
      (x ∈ permutate_go fuel p ↔ x ≠ [] ∧ x <+: p) := by
  intro fuel
  induction fuel with
  | zero =>
    intro p x h
    have hp : p = [] := List.eq_nil_of_length_eq_zero (Nat.le_zero.mp h)
    subst hp
    simp [permutate_go, List.prefix_nil]
  | succ n ih =>
    intro p x h
    by_cases hp : p = []
    · subst hp
      simp [permutate_go, List.prefix_nil]
    · simp only [permutate_go, if_neg hp, List.mem_cons]
      have hlen : (parentOf p).length ≤ n := by
        simp only [parentOf, List.length_dropLast]
        have : p.length ≠ 0 := fun h0 => hp (List.eq_nil_of_length_eq_zero h0)
        omega
      rw [ih (parentOf p) x hlen]
      constructor
      · rintro (rfl | ⟨hne, hpre⟩)
        · exact ⟨hp, List.prefix_rfl⟩
        · exact ⟨hne, hpre.trans (dropLast_isPre p)⟩
      · rintro ⟨hne, hpre⟩
        by_cases hxp : x = p
        · exact Or.inl hxp
        · exact Or.inr ⟨hne, pre_dropLast_of_ne hpre hxp⟩

theorem mem_permutate_path {p x : DPath} :
    x ∈ permutate_path p ↔ x ≠ [] ∧ x <+: p :=
  mem_permutate_go p.length p x le_rfl

/-- On an absolute path the `while` loop of `permutate_path` terminates
after exactly `p.length` iterations, and `permutate_path` is its value. -/
theorem permutate_loop_eq_permutate_path :
    ∀ (fuel : Nat) (p : DPath), p.length ≤ fuel →
      permutate_loop fuel ⟨true, p⟩ = some ((permutate_go fuel p).map (⟨true, ·⟩)) := by
  intro fuel
  induction fuel with
  | zero =>
    intro p h
    have hp : p = [] := List.eq_nil_of_length_eq_zero (Nat.le_zero.mp h)
    subst hp
    simp [permutate_loop, permutate_go]
  | succ n ih =>
    intro p h
    by_cases hp : p = []
    · subst hp
      simp [permutate_loop, permutate_go]
    · have hne : (⟨true, p⟩ : PyPath) ≠ ⟨true, []⟩ := by
        simp [hp]
      have hlen : (parentOf p).length ≤ n := by
        simp only [parentOf, List.length_dropLast]
        have : p.length ≠ 0 := fun h0 => hp (List.eq_nil_of_length_eq_zero h0)
        omega
      simp only [permutate_loop, if_neg hne, permutate_go, if_neg hp]
      rw [show parentPy ⟨true, p⟩ = ⟨true, parentOf p⟩ by simp [parentPy, hp, parentOf]]
      rw [ih (parentOf p) hlen]
      simp

/-! ### The sort order of generate_node_list -/

theorem charListLt_trans :
    ∀ (a b c : List Char), charListLt a b = true → charListLt b c = true →
      charListLt a c = true := by
  intro a
  induction a with
  | nil =>
    intro b c h1 h2
    cases b with
    | nil => simp [charListLt] at h1
    | cons y bs =>
      cases c with
      | nil => simp [charListLt] at h2
      | cons z cs => simp [charListLt]
  | cons x as ih =>
    intro b c h1 h2
    cases b with
    | nil => simp [charListLt] at h1
    | cons y bs =>
      cases c with
      | nil => simp [charListLt] at h2
      | cons z cs =>
        by_cases hxy : x < y
        · by_cases hyz : y < z
          · have hxz : x < z := lt_trans hxy hyz
            simp [charListLt, hxz]
          · by_cases hzy : z < y
            · simp [charListLt, hyz, hzy] at h2
            · have hyz' : y = z := le_antisymm (not_lt.mp hzy) (not_lt.mp hyz)
              subst hyz'
              simp [charListLt, hxy]
        · by_cases hyx : y < x
          · simp [charListLt, hxy, hyx] at h1
          · have hxy' : x = y := le_antisymm (not_lt.mp hyx) (not_lt.mp hxy)
            subst hxy'
            simp only [charListLt, if_neg (lt_irrefl x)] at h1
            by_cases hyz : x < z
            · simp [charListLt, hyz]
            · by_cases hzy : z < x
              · simp [charListLt, hyz, hzy] at h2
              · have hyz' : x = z := le_antisymm (not_lt.mp hzy) (not_lt.mp hyz)
                subst hyz'
                simp only [charListLt, if_neg (lt_irrefl x)] at h2 ⊢
                exact ih bs cs h1 h2

theorem charListLt_connex :
    ∀ (a b : List Char), charListLt a b = false → charListLt b a = false → a = b := by
  intro a
  induction a with
  | nil =>
    intro b h1 _
    cases b with
    | nil => rfl
    | cons y bs => simp [charListLt] at h1
  | cons x as ih =>
    intro b h1 h2
    cases b with
    | nil => simp [charListLt] at h2
    | cons y bs =>
      by_cases hxy : x < y
      · simp [charListLt, hxy] at h1
      · by_cases hyx : y < x
        · simp [charListLt, hyx, hxy] at h2
        · have hxy' : x = y := le_antisymm (not_lt.mp hyx) (not_lt.mp hxy)
          subst hxy'
          simp only [charListLt, if_neg (lt_irrefl x)] at h1 h2
          rw [ih bs h1 h2]

theorem charListLt_irrefl : ∀ (a : List Char), charListLt a a = false := by
  intro a
  induction a with
  | nil => rfl
  | cons x as ih => simp [charListLt, ih]

theorem strLt_irrefl (a : String) : strLt a a = false :=
  charListLt_irrefl a.data

theorem strLt_trans {a b c : String} (h1 : strLt a b = true) (h2 : strLt b c = true) :
    strLt a c = true :=
  charListLt_trans a.data b.data c.data h1 h2

theorem strLt_connex {a b : String} (h1 : strLt a b = false) (h2 : strLt b a = false) :
    a = b :=
  String.ext (charListLt_connex a.data b.data h1 h2)

theorem lexLt_trans :
    ∀ (a b c : List String), lexLt a b = true → lexLt b c = true → lexLt a c = true := by
  intro a
  induction a with
  | nil =>
    intro b c h1 h2
    cases b with
    | nil => simp [lexLt] at h1
    | cons y bs =>
      cases c with
      | nil => simp [lexLt] at h2
      | cons z cs => simp [lexLt]
  | cons x as ih =>
    intro b c h1 h2
    cases b with
    | nil => simp [lexLt] at h1
    | cons y bs =>
      cases c with
      | nil => simp [lexLt] at h2
      | cons z cs =>
        by_cases hxy : strLt x y = true
        · by_cases hyz : strLt y z = true
          · have hxz := strLt_trans hxy hyz
            simp [lexLt, hxz]
          · by_cases hzy : strLt z y = true
            · simp [lexLt, hyz, hzy] at h2
            · have hyz' : y = z :=
                strLt_connex (Bool.not_eq_true _ ▸ hyz) (Bool.not_eq_true _ ▸ hzy)
              subst hyz'
              simp [lexLt, hxy]
        · by_cases hyx : strLt y x = true
          · simp [lexLt, hxy, hyx] at h1
          · have hxy' : x = y :=
              strLt_connex (Bool.not_eq_true _ ▸ hxy) (Bool.not_eq_true _ ▸ hyx)
            subst hxy'
            have hxx : strLt x x = false := strLt_irrefl x
            simp only [lexLt, hxx, Bool.false_eq_true, if_false] at h1
            by_cases hyz : strLt x z = true
            · simp [lexLt, hyz]
            · by_cases hzy : strLt z x = true
              · simp [lexLt, hyz, hzy] at h2
              · have hyz' : x = z :=
                  strLt_connex (Bool.not_eq_true _ ▸ hyz) (Bool.not_eq_true _ ▸ hzy)
                subst hyz'
                simp only [lexLt, hxx, Bool.false_eq_true, if_false] at h2 ⊢
                exact ih bs cs h1 h2

theorem lexLt_connex :
    ∀ (a b : List String), lexLt a b = false → lexLt b a = false → a = b := by
  intro a
  induction a with
  | nil =>
    intro b h1 _
    cases b with
    | nil => rfl
    | cons y bs => simp [lexLt] at h1
  | cons x as ih =>
    intro b h1 h2
    cases b with
    | nil => simp [lexLt] at h2
    | cons y bs =>
      by_cases hxy : strLt x y = true
      · simp [lexLt, hxy] at h1
      · by_cases hyx : strLt y x = true
        · simp [lexLt, hyx, hxy] at h2
        · have hxy' : x = y :=
            strLt_connex (Bool.not_eq_true _ ▸ hxy) (Bool.not_eq_true _ ▸ hyx)
          subst hxy'
          have hxx : strLt x x = false := strLt_irrefl x
          simp only [lexLt, hxx, Bool.false_eq_true, if_false] at h1 h2
          rw [ih bs h1 h2]

instance : IsTrans DPath nodeLe where
  trans a b c hab hbc := by
    rcases hab with h1 | ⟨e1, h1⟩
    · rcases hbc with h2 | ⟨e2, _⟩
      · exact Or.inl (lt_trans h1 h2)
      · exact Or.inl (e2 ▸ h1)
    · rcases hbc with h2 | ⟨e2, h2⟩
      · exact Or.inl (e1 ▸ h2)
      · refine Or.inr ⟨e1.trans e2, ?_⟩
        rcases h1 with h1 | rfl
        · rcases h2 with h2 | rfl
          · exact Or.inl (lexLt_trans a b c h1 h2)
          · exact Or.inl h1
        · exact h2

instance : IsTotal DPath nodeLe where
  total a b := by
    rcases Nat.lt_trichotomy a.length b.length with h | h | h
    · exact Or.inl (Or.inl h)
    · by_cases hab : lexLt a b = true
      · exact Or.inl (Or.inr ⟨h, Or.inl hab⟩)
      · by_cases hba : lexLt b a = true
        · exact Or.inr (Or.inr ⟨h.symm, Or.inl hba⟩)
        · have : a = b :=
            lexLt_connex a b (Bool.not_eq_true _ ▸ hab) (Bool.not_eq_true _ ▸ hba)
          exact Or.inl (Or.inr ⟨h, Or.inr this⟩)
    · exact Or.inr (Or.inl h)

/-! ### generate_node_list: membership, order, distinctness -/

theorem mem_generate_node_list {dirs : List Directory} {n : DPath} :
    n ∈ generate_node_list dirs ↔
      n ∈ permutate_path (rootSegs dirs) ∨ ∃ d ∈ dirs, n ∈ permutate_path d.directory := by
  unfold generate_node_list
  rw [List.mem_insertionSort, List.mem_dedup, List.mem_append, List.mem_flatMap]

theorem nodup_generate_node_list (dirs : List Directory) :
    (generate_node_list dirs).Nodup := by
  unfold generate_node_list
  exact ((List.perm_insertionSort nodeLe _).nodup_iff).mpr (List.nodup_dedup _)

theorem sorted_generate_node_list (dirs : List Directory) :
    List.Sorted nodeLe (generate_node_list dirs) :=
  List.sorted_insertionSort nodeLe _

theorem ne_nil_of_mem_generate_node_list {dirs : List Directory} {n : DPath}
    (h : n ∈ generate_node_list dirs) : n ≠ [] := by
  rcases mem_generate_node_list.mp h with h' | ⟨d, _, h'⟩
  · exact (mem_permutate_path.mp h').1
  · exact (mem_permutate_path.mp h').1

theorem root_not_mem_generate_node_list (dirs : List Directory) :
    [] ∉ generate_node_list dirs := fun h =>
  ne_nil_of_mem_generate_node_list h rfl

theorem pairwise_generate_node_list (dirs : List Directory) :
    (generate_node_list dirs).Pairwise (fun a b => a ≠ b ∧ a.length ≤ b.length) := by
  have h1 : (generate_node_list dirs).Pairwise (· ≠ ·) := nodup_generate_node_list dirs
  have h2 : (generate_node_list dirs).Pairwise nodeLe := sorted_generate_node_list dirs
  refine (h1.and h2).imp ?_
  rintro a b ⟨hne, hle⟩
  refine ⟨hne, ?_⟩
  rcases hle with h | ⟨h, _⟩
  · exact le_of_lt h
  · exact le_of_eq h

/-! ### indexOfP (list.index) -/

theorem indexOfP_some {p : DPath} :
    ∀ {l : List DPath} {i : Nat}, indexOfP p l = some i → l[i]? = some p := by
  intro l
  induction l with
  | nil => intro i h; simp [indexOfP] at h
  | cons q rest ih =>
    intro i h
    by_cases hq : q = p
    · subst hq
      simp [indexOfP] at h
      subst h
      simp
    · simp only [indexOfP, if_neg hq] at h
      rcases Option.map_eq_some'.mp h with ⟨j, hj, hij⟩
      subst hij
      simpa using ih hj

theorem indexOfP_none {p : DPath} :
    ∀ {l : List DPath}, indexOfP p l = none ↔ p ∉ l := by
  intro l
  induction l with
  | nil => simp [indexOfP]
  | cons q rest ih =>
    by_cases hq : q = p
    · subst hq
      simp [indexOfP]
    · simp only [indexOfP, if_neg hq, Option.map_eq_none', List.mem_cons, ih]
      constructor
      · rintro h (rfl | h2)
        · exact hq rfl
        · exact h h2
      · intro h h2
        exact h (Or.inr h2)

theorem indexOfP_isSome_of_mem {p : DPath} {l : List DPath} (h : p ∈ l) :
    ∃ i, indexOfP p l = some i := by
  cases hidx : indexOfP p l with
  | none => exact absurd h (indexOfP_none.mp hidx)
  | some i => exact ⟨i, rfl⟩

/-! ### dir_size_dict_get: dict-comprehension lookup -/

theorem dict_foldl_no_match {p : DPath} :
    ∀ (ds : List Directory) (acc : Option Int), (∀ d ∈ ds, d.directory ≠ p) →
      ds.foldl (fun acc d => if d.directory = p then some d.size_GB else acc) acc = acc := by
  intro ds
  induction ds with
  | nil => intro acc _; rfl
  | cons d rest ih =>
    intro acc h
    simp only [List.foldl_cons, if_neg (h d (List.mem_cons_self d rest))]
    exact ih acc (fun e he => h e (List.mem_cons_of_mem d he))

theorem dict_get_append_no_match {p : DPath} {ds es : List Directory}
    (h : ∀ d ∈ es, d.directory ≠ p) :
    dir_size_dict_get (ds ++ es) p = dir_size_dict_get ds p := by
  unfold dir_size_dict_get
  rw [List.foldl_append, dict_foldl_no_match es _ h]

theorem dict_get_append_last {p : DPath} {ds es : List Directory} {v : Int}
    (h : ∀ d ∈ es, d.directory ≠ p) :
    dir_size_dict_get (ds ++ ⟨p, v⟩ :: es) p = v := by
  unfold dir_size_dict_get
  rw [List.foldl_append, List.foldl_cons, if_pos rfl, dict_foldl_no_match es _ h]
  rfl

theorem dict_get_of_mem_nodup {ds : List Directory} {d : Directory}
    (hnodup : (ds.map (·.directory)).Nodup) (hd : d ∈ ds) :
    dir_size_dict_get ds d.directory = d.size_GB := by
  rcases List.append_of_mem hd with ⟨s, t, rfl⟩
  have ht : ∀ e ∈ t, e.directory ≠ d.directory := by
    intro e he
    have := hnodup
    rw [List.map_append, List.map_cons] at this
    have h2 := (List.nodup_append.mp this).2.1
    rw [List.nodup_cons] at h2
    intro heq
    exact h2.1 (heq ▸ List.mem_map_of_mem (·.directory) he)
  have : dir_size_dict_get (s ++ ⟨d.directory, d.size_GB⟩ :: t) d.directory = d.size_GB :=
    dict_get_append_last ht
  simpa using this

/-! ### childSum -/

theorem childSum_append (ds es : List Directory) (n : DPath) :
    childSum (ds ++ es) n = childSum ds n + childSum es n := by
  unfold childSum
  rw [List.filter_append, List.map_append, List.sum_append]

theorem childSum_no_match {es : List Directory} {n : DPath}
    (h : ∀ d ∈ es, parentOf d.directory ≠ n) : childSum es n = 0 := by
  unfold childSum
  have : es.filter (fun d => parentOf d.directory == n) = [] := by
    rw [List.filter_eq_nil_iff]
    intro d hd
    simpa using h d hd
  rw [this]
  rfl

/-! ### The label/size loop: full characterization

The loop walks the sorted node list shallowest-first, so every entry it
appends to the `dirlist` has a path that is strictly earlier in the node
order than all still-unprocessed nodes.  Such an entry can never be a
*child* of a later node (a child is strictly longer), so the children
summed for a node are always children among the *original* directories. -/

theorem parent_ne_of_le {a n : DPath} (hlen : a.length ≤ n.length) (hne : n ≠ []) :
    parentOf a ≠ n := by
  intro h
  cases a with
  | nil => exact hne (h ▸ rfl)
  | cons x xs =>
    have hlen2 := congrArg List.length h
    simp only [parentOf, List.length_dropLast, List.length_cons] at hlen2
    simp only [List.length_cons] at hlen
    omega

theorem aggGo_spec (ds : List Directory) :
    ∀ (ns : List DPath) (acc : List Directory),
      (∀ n ∈ ns, n ≠ []) →
      ns.Pairwise (fun a b => a ≠ b ∧ a.length ≤ b.length) →
      (∀ a ∈ acc, ∀ n ∈ ns, a.directory ≠ n ∧ a.directory.length ≤ n.length) →
      aggGo ns (ds ++ acc) =
        (ds ++ acc ++ (ns.filter (fun n => dir_size_dict_get ds n == 0)).map
            (fun n => ⟨n, childSum ds n⟩),
         ns.map (fun n => (nameOf n, resolvedSize ds n))) := by
  intro ns
  induction ns with
  | nil =>
    intro acc _ _ _
    simp [aggGo]
  | cons n rest ih =>
    intro acc hne hpair hacc
    have hpc := List.pairwise_cons.mp hpair
    have hne_n : n ≠ [] := hne n (List.mem_cons_self n rest)
    have hacc_n : ∀ a ∈ acc, a.directory ≠ n :=
      fun a ha => (hacc a ha n (List.mem_cons_self n rest)).1
    have h_get : dir_size_dict_get (ds ++ acc) n = dir_size_dict_get ds n :=
      dict_get_append_no_match hacc_n
    have h_cs : childSum (ds ++ acc) n = childSum ds n := by
      have hz : childSum acc n = 0 := childSum_no_match (fun a ha =>
        parent_ne_of_le (hacc a ha n (List.mem_cons_self n rest)).2 hne_n)
      rw [childSum_append, hz, add_zero]
    by_cases h0 : dir_size_dict_get ds n = 0
    · have step : aggGo (n :: rest) (ds ++ acc) =
          ((aggGo rest (ds ++ (acc ++ [⟨n, childSum ds n⟩]))).1,
           (nameOf n, childSum ds n) :: (aggGo rest (ds ++ (acc ++ [⟨n, childSum ds n⟩]))).2) := by
        simp only [aggGo, h_get, h_cs, if_pos h0, ← List.append_assoc]
      have hacc' : ∀ a ∈ acc ++ [(⟨n, childSum ds n⟩ : Directory)], ∀ m ∈ rest,
          a.directory ≠ m ∧ a.directory.length ≤ m.length := by
        intro a ha m hm
        rcases List.mem_append.mp ha with ha' | ha'
        · exact hacc a ha' m (List.mem_cons_of_mem n hm)
        · have haeq : a = ⟨n, childSum ds n⟩ := by simpa using ha'
          subst haeq
          exact hpc.1 m hm
      have ihh := ih (acc ++ [⟨n, childSum ds n⟩])
        (fun m hm => hne m (List.mem_cons_of_mem n hm)) hpc.2 hacc'
      rw [step, ihh]
      have hfilter : (n :: rest).filter (fun m => dir_size_dict_get ds m == 0) =
          n :: rest.filter (fun m => dir_size_dict_get ds m == 0) := by
        simp [List.filter_cons, h0]
      rw [hfilter]
      simp [List.append_assoc, resolvedSize, h0]
    · have step : aggGo (n :: rest) (ds ++ acc) =
          ((aggGo rest (ds ++ acc)).1,
           (nameOf n, dir_size_dict_get ds n) :: (aggGo rest (ds ++ acc)).2) := by
        simp only [aggGo, h_get, if_neg h0]
      rw [step, ih acc (fun m hm => hne m (List.mem_cons_of_mem n hm)) hpc.2
        (fun a ha m hm => hacc a ha m (List.mem_cons_of_mem n hm))]
      have hfilter : (n :: rest).filter (fun m => dir_size_dict_get ds m == 0) =
          rest.filter (fun m => dir_size_dict_get ds m == 0) := by
        simp [List.filter_cons, h0]
      rw [hfilter]
      simp [resolvedSize, h0]

/-- The label loop on the actual node list: the final `dirlist` is the
input followed by one synthesized entry per zero-size node (in node
order), and the labels pair each node's name with its resolved size. -/
theorem aggGo_eq (dirs : List Directory) :
    aggGo (generate_node_list dirs) dirs =
      (dirs ++ ((generate_node_list dirs).filter
            (fun n => dir_size_dict_get dirs n == 0)).map
          (fun n => ⟨n, childSum dirs n⟩),
       (generate_node_list dirs).map (fun n => (nameOf n, resolvedSize dirs n))) := by
  have h := aggGo_spec dirs (generate_node_list dirs) []
    (fun n hn => ne_nil_of_mem_generate_node_list hn)
    (pairwise_generate_node_list dirs)
    (by intro a ha; simp at ha)
  simpa using h

/-- After the loop, looking a zero-size node up in the mutated `dirlist`
finds the synthesized entry: the sum of the input sizes of its direct
children among the original directories. -/
theorem dict_get_aggGo_final {dirs : List Directory} {n : DPath}
    (hmem : n ∈ generate_node_list dirs) (h0 : dir_size_dict_get dirs n = 0) :
    dir_size_dict_get (aggGo (generate_node_list dirs) dirs).1 n = childSum dirs n := by
  rw [aggGo_eq]
  have hnf : n ∈ (generate_node_list dirs).filter
      (fun m => dir_size_dict_get dirs m == 0) :=
    List.mem_filter.mpr ⟨hmem, by simpa using h0⟩
  have hnodupf : ((generate_node_list dirs).filter
      (fun m => dir_size_dict_get dirs m == 0)).Nodup :=
    (nodup_generate_node_list dirs).filter _
  rcases List.append_of_mem hnf with ⟨s, t, hst⟩
  have hnt : n ∉ t := by
    rw [hst] at hnodupf
    exact (List.nodup_cons.mp (List.nodup_append.mp hnodupf).2.1).1
  rw [hst, List.map_append, List.map_cons, ← List.append_assoc]
  apply dict_get_append_last
  intro d hd
  rcases List.mem_map.mp hd with ⟨m, hm, rfl⟩
  intro he
  have hmn : m = n := he
  exact hnt (hmn ▸ hm)

/-! ### The link loops -/

theorem build_links_values {nodes : List DPath} :
    ∀ {dirs : List Directory} {links : List Link},
      build_links nodes dirs = .ok links →
      links.map (·.value) = dirs.map (·.size_GB) := by
  intro dirs
  induction dirs with
  | nil =>
    intro links h
    simp only [build_links] at h
    cases h
    rfl
  | cons d rest ih =>
    intro links h
    simp only [build_links] at h
    cases ht : indexOfP d.directory nodes with
    | none => rw [ht] at h; exact absurd h (by simp)
    | some t =>
      cases hs : indexOfP (parentOf d.directory) nodes with
      | none => rw [ht, hs] at h; exact absurd h (by simp)
      | some src =>
        rw [ht, hs] at h
        cases hrec : build_links nodes rest with
        | error e => rw [hrec] at h; exact absurd h (by simp [Except.map])
        | ok l' =>
          rw [hrec] at h
          simp only [Except.map] at h
          cases h
          simp only [List.map_cons]
          rw [ih hrec]

theorem build_links_length {nodes : List DPath} {dirs : List Directory} {links : List Link}
    (h : build_links nodes dirs = .ok links) : links.length = dirs.length := by
  have := congrArg List.length (build_links_values h)
  simpa using this

theorem build_links_target_found {nodes : List DPath} :
    ∀ {dirs : List Directory} {links : List Link},
      build_links nodes dirs = .ok links →
      ∀ d ∈ dirs, ∃ i, indexOfP d.directory nodes = some i := by
  intro dirs
  induction dirs with
  | nil => intro links _ d hd; simp at hd
  | cons d0 rest ih =>
    intro links h d hd
    simp only [build_links] at h
    cases ht : indexOfP d0.directory nodes with
    | none => rw [ht] at h; exact absurd h (by simp)
    | some t =>
      cases hs : indexOfP (parentOf d0.directory) nodes with
      | none => rw [ht, hs] at h; exact absurd h (by simp)
      | some src =>
        rw [ht, hs] at h
        cases hrec : build_links nodes rest with
        | error e => rw [hrec] at h; exact absurd h (by simp [Except.map])
        | ok l' =>
          rcases List.mem_cons.mp hd with rfl | hd'
          · exact ⟨t, ht⟩
          · exact ih hrec d hd'

theorem build_root_links_length {nodes : List DPath} {dsF : List Directory} {root : DPath} :
    ∀ {l : List DPath} {ls : List Link},
      build_root_links nodes dsF root l = .ok ls → ls.length = l.length := by
  intro l
  induction l with
  | nil =>
    intro ls h
    simp only [build_root_links] at h
    cases h
    rfl
  | cons n rest ih =>
    intro ls h
    simp only [build_root_links] at h
    cases ht : indexOfP n nodes with
    | none => rw [ht] at h; exact absurd h (by simp)
    | some t =>
      cases hs : indexOfP root nodes with
      | none => rw [ht, hs] at h; exact absurd h (by simp)
      | some src =>
        rw [ht, hs] at h
        cases hrec : build_root_links nodes dsF root rest with
        | error e => rw [hrec] at h; exact absurd h (by simp [Except.map])
        | ok l' =>
          rw [hrec] at h
          simp only [Except.map] at h
          cases h
          simp [ih hrec]

theorem build_links_error_of_parent_nil {nodes : List DPath} (hnil : [] ∉ nodes) :
    ∀ {dirs : List Directory}, (∃ d ∈ dirs, parentOf d.directory = []) →
      isError (build_links nodes dirs) = true := by
  intro dirs
  induction dirs with
  | nil => rintro ⟨d, hd, _⟩; simp at hd
  | cons d0 rest ih =>
    rintro ⟨d, hd, hpar⟩
    have hsrc_nil : indexOfP ([] : DPath) nodes = none := indexOfP_none.mpr hnil
    rcases List.mem_cons.mp hd with rfl | hd'
    · cases ht : indexOfP d.directory nodes with
      | none => simp [build_links, ht, isError]
      | some t => simp [build_links, ht, hpar, hsrc_nil, isError]
    · cases ht : indexOfP d0.directory nodes with
      | none => simp [build_links, ht, isError]
      | some t =>
        cases hs : indexOfP (parentOf d0.directory) nodes with
        | none => simp [build_links, ht, hs, isError]
        | some src =>
          have hrec := ih ⟨d, hd', hpar⟩
          cases hr : build_links nodes rest with
          | error e' => simp [build_links, ht, hs, hr, Except.map, isError]
          | ok l' => rw [hr] at hrec; simp [isError] at hrec

/-! ### Destructuring a successful run of main -/

theorem exists_ok_of_not_isError {r : Except String Output} (h : isError r = false) :
    ∃ out, r = .ok out := by
  cases r with
  | error e => simp [isError] at h
  | ok out => exact ⟨out, rfl⟩

theorem main_ok_spec {dirs : List Directory} {out : Output} (h : main dirs = .ok out) :
    out.nodes = generate_node_list dirs ∧
    ∃ links1 links2 cri,
      build_links (generate_node_list dirs) dirs = .ok links1 ∧
      build_root_links (generate_node_list dirs) (aggGo (generate_node_list dirs) dirs).1
        (rootSegs dirs)
        ((generate_node_list dirs).filter (fun n => parentOf n == rootSegs dirs)) = .ok links2 ∧
      indexOfP (rootSegs dirs) (generate_node_list dirs) = some cri ∧
      out.labels = (aggGo (generate_node_list dirs) dirs).2.set cri
        (pyStr (rootSegs dirs),
          childSum (aggGo (generate_node_list dirs) dirs).1 (rootSegs dirs)) ∧
      out.links = links1 ++ links2 := by
  simp only [main] at h
  cases hbl : build_links (generate_node_list dirs) dirs with
  | error e => rw [hbl] at h; exact absurd h (by simp)
  | ok links1 =>
    rw [hbl] at h
    simp only [] at h
    cases hbr : build_root_links (generate_node_list dirs) (aggGo (generate_node_list dirs) dirs).1
        (rootSegs dirs)
        ((generate_node_list dirs).filter (fun n => parentOf n == rootSegs dirs)) with
    | error e => rw [hbr] at h; exact absurd h (by simp)
    | ok links2 =>
      rw [hbr] at h
      simp only [] at h
      cases hcri : indexOfP (rootSegs dirs) (generate_node_list dirs) with
      | none => rw [hcri] at h; exact absurd h (by simp)
      | some cri =>
        rw [hcri] at h
        simp only [Except.ok.injEq] at h
        subst h
        exact ⟨rfl, links1, links2, cri, rfl, rfl, rfl, rfl, rfl⟩

theorem build_root_links_error_head (dsF : List Directory) {nodes : List DPath} {root : DPath}
    (hroot : indexOfP root nodes = none) {l : List DPath} (hl : l ≠ []) :
    isError (build_root_links nodes dsF root l) = true := by
  cases l with
  | nil => exact absurd rfl hl
  | cons n rest =>
    cases ht : indexOfP n nodes with
    | none => simp [build_root_links, ht, isError]
    | some t => simp [build_root_links, ht, hroot, isError]

/-! ## Claims -/

/-- C4: the spec demands the longest *whole-directory* common prefix
(`/data/ab` and `/data/abc` must give `/data`), but `get_common_root`
uses the character-level `os.path.commonprefix`: on `/data/ab` and
`/data/abc` it returns `/data/ab`, which is not even a path-ancestor of
`/data/abc`. -/
theorem commonprefix_partial_segment_eval :
    get_common_root [⟨["data", "ab"], 1⟩, ⟨["data", "abc"], 2⟩] = ⟨true, ["data", "ab"]⟩ ∧
    ¬ rootSegs [⟨["data", "ab"], 1⟩, ⟨["data", "abc"], 2⟩] <+: ["data", "abc"] := by
  constructor
  · decide
  · decide

/-- C6 counterexample: with zero records, root resolution does not fail
with any error: `os.path.commonprefix([])` is `""`, so the common root
is `Path(".")`; the ancestor-expansion loop then makes no progress
(`Path(".").parent == Path(".")`), here seen not terminating within 9
iterations. -/
theorem empty_input_returns_dot_cex :
    get_common_root [] = ⟨false, []⟩ ∧ permutate_loop 9 ⟨false, []⟩ = none := by
  constructor
  · decide
  · decide

/-- C6 (amended): given zero records the code raises no `EmptyInputError`
(no such error exists); `get_common_root` returns `Path(".")` and the
`while path != Path("/")` loop of `permutate_path` never terminates on
it (it diverges for every amount of fuel), so no output of any kind is
produced. -/
theorem empty_input_no_error_and_loop_diverges :
    get_common_root [] = ⟨false, []⟩ ∧
    ∀ fuel : Nat, permutate_loop fuel ⟨false, []⟩ = none := by
  constructor
  · decide
  · intro fuel
    induction fuel with
    | zero => rfl
    | succ n ih =>
      have hne : (⟨false, []⟩ : PyPath) ≠ ⟨true, []⟩ := by decide
      simp only [permutate_loop, if_neg hne]
      rw [show parentPy ⟨false, []⟩ = ⟨false, []⟩ from rfl, ih]
      rfl

theorem empty_input_no_error_and_loop_diverges_wit :
    get_common_root [] = ⟨false, []⟩ ∧ permutate_loop 7 ⟨false, []⟩ = none :=
  ⟨empty_input_no_error_and_loop_diverges.1,
    empty_input_no_error_and_loop_diverges.2 7⟩

/-- C1 counterexample: inputs `/r/x` (1 GB) and `/r/a/b/c` (5 GB) give the
unmeasured chain `/r/a → /r/a/b`.  After resolution `/r/a/b` has size 5,
`/r/a`'s only child node is `/r/a/b`, yet `/r/a` resolves to 0, not 5:
invariant I3 fails on multi-level unmeasured chains. -/
theorem chain_aggregation_cex :
    dir_size_dict_get
        (aggGo (generate_node_list [⟨["r", "x"], 1⟩, ⟨["r", "a", "b", "c"], 5⟩])
          [⟨["r", "x"], 1⟩, ⟨["r", "a", "b", "c"], 5⟩]).1 ["r", "a"] = 0 ∧
    ((generate_node_list [⟨["r", "x"], 1⟩, ⟨["r", "a", "b", "c"], 5⟩]).filter
        (fun n => parentOf n == ["r", "a"])) = [["r", "a", "b"]] ∧
    dir_size_dict_get
        (aggGo (generate_node_list [⟨["r", "x"], 1⟩, ⟨["r", "a", "b", "c"], 5⟩])
          [⟨["r", "x"], 1⟩, ⟨["r", "a", "b", "c"], 5⟩]).1 ["r", "a", "b"] = 5 := by
  refine ⟨by decide, by decide, by decide⟩

/-- C1 (amended): the label loop processes nodes shallowest-first, so an
unmeasured node's resolved size is the sum of the *input* sizes of the
measured directories whose direct parent it is; unmeasured children
contribute nothing (sizes do not propagate up chains of unmeasured
nodes — in `root → A → B → measured C`, `B` resolves to `C`'s size but
`A` resolves to `0`). -/
theorem unmeasured_size_eq_input_child_sum (dirs : List Directory) (n : DPath)
    (hmem : n ∈ generate_node_list dirs) (h0 : dir_size_dict_get dirs n = 0) :
    dir_size_dict_get (aggGo (generate_node_list dirs) dirs).1 n = childSum dirs n :=
  dict_get_aggGo_final hmem h0

theorem unmeasured_size_eq_input_child_sum_wit :
    (["r", "a", "b"] ∈ generate_node_list [⟨["r", "x"], 1⟩, ⟨["r", "a", "b", "c"], 5⟩]) ∧
    dir_size_dict_get [⟨["r", "x"], 1⟩, ⟨["r", "a", "b", "c"], 5⟩] ["r", "a", "b"] = 0 ∧
    dir_size_dict_get
        (aggGo (generate_node_list [⟨["r", "x"], 1⟩, ⟨["r", "a", "b", "c"], 5⟩])
          [⟨["r", "x"], 1⟩, ⟨["r", "a", "b", "c"], 5⟩]).1 ["r", "a", "b"] =
      childSum [⟨["r", "x"], 1⟩, ⟨["r", "a", "b", "c"], 5⟩] ["r", "a", "b"] :=
  ⟨by decide, by decide,
    unmeasured_size_eq_input_child_sum _ _ (by decide) (by decide)⟩

/-- C2 counterexample: for `/a/b/c/d` and `/a/b/c/e` the common root is
`/a/b/c`, yet `/a` is in the node list even though it is *above* the
common root — the claimed node set (paths and their ancestors down to
the common root only) excludes it, since the root is not an
ancestor-or-self of `/a`. -/
theorem node_set_above_root_cex :
    rootSegs [⟨["a", "b", "c", "d"], 1⟩, ⟨["a", "b", "c", "e"], 2⟩] = ["a", "b", "c"] ∧
    ["a"] ∈ generate_node_list [⟨["a", "b", "c", "d"], 1⟩, ⟨["a", "b", "c", "e"], 2⟩] ∧
    ¬ rootSegs [⟨["a", "b", "c", "d"], 1⟩, ⟨["a", "b", "c", "e"], 2⟩] <+: ["a"] := by
  refine ⟨by decide, by decide, by decide⟩

/-- C2 (amended): the node set is exactly the nonempty prefixes
(ancestors-or-self) of the measured paths and of the common root, all
the way up to — but excluding — the filesystem root `/`; expansion does
not stop at the common root. -/
theorem node_set_iff_nonempty_fs_prefix (dirs : List Directory) (n : DPath) :
    n ∈ generate_node_list dirs ↔
      (n ≠ [] ∧ (n <+: rootSegs dirs ∨ ∃ d ∈ dirs, n <+: d.directory)) := by
  rw [mem_generate_node_list]
  constructor
  · rintro (h | ⟨d, hd, h⟩)
    · exact ⟨(mem_permutate_path.mp h).1, Or.inl (mem_permutate_path.mp h).2⟩
    · exact ⟨(mem_permutate_path.mp h).1, Or.inr ⟨d, hd, (mem_permutate_path.mp h).2⟩⟩
  · rintro ⟨hne, h | ⟨d, hd, h⟩⟩
    · exact Or.inl (mem_permutate_path.mpr ⟨hne, h⟩)
    · exact Or.inr ⟨d, hd, mem_permutate_path.mpr ⟨hne, h⟩⟩

theorem node_set_iff_nonempty_fs_prefix_wit :
    ["a"] ∈ generate_node_list [⟨["a", "b", "c", "d"], 1⟩, ⟨["a", "b", "c", "e"], 2⟩] ↔
      ((["a"] : DPath) ≠ [] ∧
        (["a"] <+: rootSegs [⟨["a", "b", "c", "d"], 1⟩, ⟨["a", "b", "c", "e"], 2⟩] ∨
          ∃ d ∈ [⟨["a", "b", "c", "d"], 1⟩, (⟨["a", "b", "c", "e"], 2⟩ : Directory)],
            ["a"] <+: d.directory)) :=
  node_set_iff_nonempty_fs_prefix [⟨["a", "b", "c", "d"], 1⟩, ⟨["a", "b", "c", "e"], 2⟩] ["a"]

/-- C5 counterexample: for `/a/b/c/d` and `/a/b/c/e` the common root
`/a/b/c` is *not* the first node: the list starts with its ancestor
`/a`. -/
theorem root_not_first_cex :
    (generate_node_list [⟨["a", "b", "c", "d"], 1⟩, ⟨["a", "b", "c", "e"], 2⟩]).head? =
      some ["a"] ∧
    rootSegs [⟨["a", "b", "c", "d"], 1⟩, ⟨["a", "b", "c", "e"], 2⟩] = ["a", "b", "c"] ∧
    (["a"] : DPath) ≠ ["a", "b", "c"] := by
  refine ⟨by decide, by decide, by decide⟩

/-- C5 (amended): the node list is totally ordered by segment count
ascending, then lexicographically — but the common root heads the list
only when it is one segment deep; whenever it is deeper (or is `/`
itself), the first position is held by some other (shallower) node. -/
theorem node_order_sorted_root_first_cond (dirs : List Directory) :
    List.Sorted nodeLe (generate_node_list dirs) ∧
    ((rootSegs dirs).length ≠ 1 →
      (generate_node_list dirs).head? ≠ some (rootSegs dirs)) := by
  refine ⟨sorted_generate_node_list dirs, ?_⟩
  intro hlen hhead
  cases hnl : generate_node_list dirs with
  | nil => rw [hnl] at hhead; simp at hhead
  | cons h t =>
    rw [hnl] at hhead
    have hh : h = rootSegs dirs := by simpa using hhead
    subst hh
    have hrmem : rootSegs dirs ∈ generate_node_list dirs := by
      rw [hnl]; exact List.mem_cons_self _ _
    have hrne : rootSegs dirs ≠ [] := ne_nil_of_mem_generate_node_list hrmem
    have hlen0 : (rootSegs dirs).length ≠ 0 := fun h0 =>
      hrne (List.eq_nil_of_length_eq_zero h0)
    have hlen2 : 2 ≤ (rootSegs dirs).length := by omega
    have hlt1 : ((rootSegs dirs).take 1).length = 1 := by
      rw [List.length_take]; omega
    have htne : (rootSegs dirs).take 1 ≠ [] := by
      intro h0; rw [h0] at hlt1; simp at hlt1
    have htmem : (rootSegs dirs).take 1 ∈ generate_node_list dirs :=
      mem_generate_node_list.mpr (Or.inl (mem_permutate_path.mpr ⟨htne, take_isPre 1 _⟩))
    have htneq : (rootSegs dirs).take 1 ≠ rootSegs dirs := by
      intro h0
      have := congrArg List.length h0
      rw [hlt1] at this
      omega
    have htmem_t : (rootSegs dirs).take 1 ∈ t := by
      rw [hnl] at htmem
      rcases List.mem_cons.mp htmem with h0 | h0
      · exact absurd h0 htneq
      · exact h0
    have hsorted := sorted_generate_node_list dirs
    rw [hnl] at hsorted
    have hle : nodeLe (rootSegs dirs) ((rootSegs dirs).take 1) :=
      (List.sorted_cons.mp hsorted).1 _ htmem_t
    rcases hle with h0 | ⟨h0, _⟩
    · omega
    · omega

theorem node_order_sorted_root_first_cond_wit :
    List.Sorted nodeLe
      (generate_node_list [⟨["a", "b", "c", "d"], 1⟩, ⟨["a", "b", "c", "e"], 2⟩]) ∧
    (generate_node_list [⟨["a", "b", "c", "d"], 1⟩, ⟨["a", "b", "c", "e"], 2⟩]).head? ≠
      some (rootSegs [⟨["a", "b", "c", "d"], 1⟩, ⟨["a", "b", "c", "e"], 2⟩]) :=
  ⟨(node_order_sorted_root_first_cond _).1,
    (node_order_sorted_root_first_cond
      [⟨["a", "b", "c", "d"], 1⟩, ⟨["a", "b", "c", "e"], 2⟩]).2 (by decide)⟩

/-- C7 counterexample: with inputs `/a/b` of size −5 and `/a/c` of size 3
the run completes without any error and emits edges carrying the
negative value −5 — there is no `NegativeSizeError` anywhere in the
code. -/
theorem negative_edge_value_cex :
    mainLinks [⟨["a", "b"], -5⟩, ⟨["a", "c"], 3⟩] =
      some [⟨0, 1, -5⟩, ⟨0, 2, 3⟩, ⟨0, 1, -5⟩, ⟨0, 2, 3⟩] ∧ (-5 : Int) < 0 := by
  refine ⟨by decide, by decide⟩

/-- C7 (amended): the first link loop performs no sign check of any kind:
the emitted edge values are exactly the input `size_GB` values, so a
negative input size flows through to a negative edge value instead of
raising a `NegativeSizeError`. -/
theorem edge_values_passthrough (nodes : List DPath) (dirs : List Directory)
    (links : List Link) (h : build_links nodes dirs = .ok links) :
    links.map (·.value) = dirs.map (·.size_GB) :=
  build_links_values h

theorem edge_values_passthrough_wit :
    build_links (generate_node_list [⟨["a", "b"], -5⟩]) [⟨["a", "b"], -5⟩] =
      .ok [⟨0, 1, -5⟩] ∧
    ([⟨0, 1, -5⟩] : List Link).map (·.value) =
      [(⟨["a", "b"], -5⟩ : Directory)].map (·.size_GB) :=
  ⟨by rfl,
    edge_values_passthrough (generate_node_list [⟨["a", "b"], -5⟩])
      [⟨["a", "b"], -5⟩] [⟨0, 1, -5⟩] (by rfl)⟩

/-- C3 counterexample: on the spec's own concrete scenario the run emits
5 links over 5 nodes (not `5 - 1 = 4`), and the edge
`/data → /data/other` (source 0, target 1, value 5) is emitted twice —
once by the per-directory loop and once by the root-children loop. -/
theorem edge_count_cex :
    mainLinks [⟨["data", "proj", "a"], 10⟩, ⟨["data", "proj", "b"], 20⟩,
        ⟨["data", "other"], 5⟩] =
      some [⟨2, 3, 10⟩, ⟨2, 4, 20⟩, ⟨0, 1, 5⟩, ⟨0, 1, 5⟩, ⟨0, 2, 30⟩] ∧
    (generate_node_list [⟨["data", "proj", "a"], 10⟩, ⟨["data", "proj", "b"], 20⟩,
        ⟨["data", "other"], 5⟩]).length = 5 ∧
    ([⟨2, 3, 10⟩, ⟨2, 4, 20⟩, ⟨0, 1, 5⟩, ⟨0, 1, 5⟩, ⟨0, 2, 30⟩] : List Link).length ≠ 5 - 1 := by
  refine ⟨by decide, by decide, by decide⟩

/-- C3 (amended): a successful run emits one edge per *measured
directory* plus one edge per node whose parent is the common root
(`len(dirs) + #root-children` edges in total, not `len(nodes) - 1`);
measured direct children of the common root therefore get a duplicate
edge, and nodes that are neither measured nor root-children get none. -/
theorem edge_count_eq_dirs_plus_root_children (dirs : List Directory) (L : List Link)
    (h : mainLinks dirs = some L) :
    L.length = dirs.length +
      ((generate_node_list dirs).filter (fun n => parentOf n == rootSegs dirs)).length := by
  unfold mainLinks at h
  cases hm : main dirs with
  | error e => rw [hm] at h; exact absurd h (by simp)
  | ok out =>
    rw [hm] at h
    simp only [Option.some.injEq] at h
    obtain ⟨_, l1, l2, cri, hbl, hbr, hcri, hlab, hlinks⟩ := main_ok_spec hm
    rw [← h, hlinks, List.length_append, build_links_length hbl,
      build_root_links_length hbr]

theorem edge_count_eq_dirs_plus_root_children_wit :
    mainLinks [⟨["data", "proj", "a"], 10⟩, ⟨["data", "proj", "b"], 20⟩,
        ⟨["data", "other"], 5⟩] =
      some [⟨2, 3, 10⟩, ⟨2, 4, 20⟩, ⟨0, 1, 5⟩, ⟨0, 1, 5⟩, ⟨0, 2, 30⟩] ∧
    ([⟨2, 3, 10⟩, ⟨2, 4, 20⟩, ⟨0, 1, 5⟩, ⟨0, 1, 5⟩, ⟨0, 2, 30⟩] : List Link).length =
      [⟨["data", "proj", "a"], 10⟩, ⟨["data", "proj", "b"], 20⟩,
        (⟨["data", "other"], 5⟩ : Directory)].length +
      ((generate_node_list [⟨["data", "proj", "a"], 10⟩, ⟨["data", "proj", "b"], 20⟩,
          ⟨["data", "other"], 5⟩]).filter
        (fun n => parentOf n == rootSegs [⟨["data", "proj", "a"], 10⟩,
          ⟨["data", "proj", "b"], 20⟩, ⟨["data", "other"], 5⟩])).length :=
  ⟨by decide,
    edge_count_eq_dirs_plus_root_children
      [⟨["data", "proj", "a"], 10⟩, ⟨["data", "proj", "b"], 20⟩, ⟨["data", "other"], 5⟩]
      [⟨2, 3, 10⟩, ⟨2, 4, 20⟩, ⟨0, 1, 5⟩, ⟨0, 1, 5⟩, ⟨0, 2, 30⟩] (by decide)⟩

/-- C8 counterexample: on the claim's own example
`[("/a/b", 50), ("/a/b/c", 10)]` the measured directory `/a/b` *is* the
common root, and the final label overwrite replaces its displayed size
with the sum of its children — it displays 10, not its measured 50. -/
theorem measured_root_display_overwritten_cex :
    displayed [⟨["a", "b"], 50⟩, ⟨["a", "b", "c"], 10⟩] ["a", "b"] = some 10 ∧
    (10 : Int) ≠ 50 := by
  refine ⟨by decide, by decide⟩

/-- C8 (amended): the size-resolution loop itself never overwrites a
measured node's nonzero size, and every measured directory with nonzero
size that is *not* the common root displays exactly its input size; but
the common root's displayed size is finally overwritten with the sum of
its direct children's sizes (so a measured common root loses its
measured value, as in the counterexample). -/
theorem measured_nonroot_display_kept (dirs : List Directory) (d : Directory)
    (hnodup : (dirs.map (·.directory)).Nodup) (hd : d ∈ dirs) (hsz : d.size_GB ≠ 0)
    (hnr : d.directory ≠ rootSegs dirs) (hok : isError (main dirs) = false) :
    displayed dirs d.directory = some d.size_GB := by
  obtain ⟨out, hm⟩ := exists_ok_of_not_isError hok
  obtain ⟨hnodes, l1, l2, cri, hbl, hbr, hcri, hlab, hlinks⟩ := main_ok_spec hm
  obtain ⟨i, hi⟩ := build_links_target_found hbl d hd
  have hi_get : (generate_node_list dirs)[i]? = some d.directory := indexOfP_some hi
  have hcri_get : (generate_node_list dirs)[cri]? = some (rootSegs dirs) :=
    indexOfP_some hcri
  have hine : cri ≠ i := by
    intro h0
    rw [h0, hi_get] at hcri_get
    exact hnr (Option.some.inj hcri_get)
  simp only [displayed, hm, hnodes, hi]
  rw [hlab, List.getElem?_set_ne hine,
    congrArg Prod.snd (aggGo_eq dirs), List.getElem?_map, hi_get]
  have hget : dir_size_dict_get dirs d.directory = d.size_GB :=
    dict_get_of_mem_nodup hnodup hd
  simp [resolvedSize, hget, hsz]

theorem measured_nonroot_display_kept_wit :
    (([⟨["a", "b"], 50⟩, ⟨["a", "b", "c"], 10⟩] : List Directory).map
        (·.directory)).Nodup ∧
    (⟨["a", "b", "c"], 10⟩ : Directory) ∈
      [(⟨["a", "b"], 50⟩ : Directory), ⟨["a", "b", "c"], 10⟩] ∧
    (10 : Int) ≠ 0 ∧
    (["a", "b", "c"] : DPath) ≠ rootSegs [⟨["a", "b"], 50⟩, ⟨["a", "b", "c"], 10⟩] ∧
    isError (main [⟨["a", "b"], 50⟩, ⟨["a", "b", "c"], 10⟩]) = false ∧
    displayed [⟨["a", "b"], 50⟩, ⟨["a", "b", "c"], 10⟩] ["a", "b", "c"] = some 10 :=
  ⟨by decide, by decide, by decide, by decide, by decide,
    measured_nonroot_display_kept [⟨["a", "b"], 50⟩, ⟨["a", "b", "c"], 10⟩]
      ⟨["a", "b", "c"], 10⟩ (by decide) (by decide) (by decide) (by decide) (by decide)⟩

/-- C10 (confirmed): the loop distinguishes unmeasured nodes only by
`size == 0`, so a measured directory whose input size is exactly 0 is
treated like an unmeasured one: its size is recomputed as the sum of
its children's input sizes, and a new synthesized `Directory` entry for
it is appended to the directory list (here stated for non-root nodes,
whose displayed label is not further overwritten). -/
theorem zero_size_measured_resynthesized (dirs : List Directory) (d : Directory)
    (hnodup : (dirs.map (·.directory)).Nodup) (hd : d ∈ dirs) (hsz : d.size_GB = 0)
    (hnr : d.directory ≠ rootSegs dirs) (hok : isError (main dirs) = false) :
    (⟨d.directory, childSum dirs d.directory⟩ : Directory) ∈
      (aggGo (generate_node_list dirs) dirs).1 ∧
    displayed dirs d.directory = some (childSum dirs d.directory) := by
  obtain ⟨out, hm⟩ := exists_ok_of_not_isError hok
  obtain ⟨hnodes, l1, l2, cri, hbl, hbr, hcri, hlab, hlinks⟩ := main_ok_spec hm
  have hget : dir_size_dict_get dirs d.directory = 0 := by
    rw [dict_get_of_mem_nodup hnodup hd, hsz]
  obtain ⟨i, hi⟩ := build_links_target_found hbl d hd
  have hi_get : (generate_node_list dirs)[i]? = some d.directory := indexOfP_some hi
  obtain ⟨hlt, hgetel⟩ := List.getElem?_eq_some_iff.mp hi_get
  have hmem : d.directory ∈ generate_node_list dirs := hgetel ▸ List.getElem_mem hlt
  have hcri_get : (generate_node_list dirs)[cri]? = some (rootSegs dirs) :=
    indexOfP_some hcri
  have hine : cri ≠ i := by
    intro h0
    rw [h0, hi_get] at hcri_get
    exact hnr (Option.some.inj hcri_get)
  constructor
  · rw [congrArg Prod.fst (aggGo_eq dirs)]
    refine List.mem_append.mpr (Or.inr ?_)
    refine List.mem_map.mpr ⟨d.directory, ?_, rfl⟩
    exact List.mem_filter.mpr ⟨hmem, by simpa using hget⟩
  · simp only [displayed, hm, hnodes, hi]
    rw [hlab, List.getElem?_set_ne hine,
      congrArg Prod.snd (aggGo_eq dirs), List.getElem?_map, hi_get]
    simp [resolvedSize, hget]

theorem zero_size_measured_resynthesized_wit :
    (([⟨["a", "b"], 0⟩, ⟨["a", "c"], 3⟩] : List Directory).map (·.directory)).Nodup ∧
    (⟨["a", "b"], 0⟩ : Directory) ∈ [(⟨["a", "b"], 0⟩ : Directory), ⟨["a", "c"], 3⟩] ∧
    ((0 : Int) = 0) ∧
    (["a", "b"] : DPath) ≠ rootSegs [⟨["a", "b"], 0⟩, ⟨["a", "c"], 3⟩] ∧
    isError (main [⟨["a", "b"], 0⟩, ⟨["a", "c"], 3⟩]) = false ∧
    ((⟨["a", "b"], childSum [⟨["a", "b"], 0⟩, ⟨["a", "c"], 3⟩] ["a", "b"]⟩ : Directory) ∈
        (aggGo (generate_node_list [⟨["a", "b"], 0⟩, ⟨["a", "c"], 3⟩])
          [⟨["a", "b"], 0⟩, ⟨["a", "c"], 3⟩]).1 ∧
      displayed [⟨["a", "b"], 0⟩, ⟨["a", "c"], 3⟩] ["a", "b"] =
        some (childSum [⟨["a", "b"], 0⟩, ⟨["a", "c"], 3⟩] ["a", "b"])) :=
  ⟨by decide, by decide, by decide, by decide, by decide,
    zero_size_measured_resynthesized [⟨["a", "b"], 0⟩, ⟨["a", "c"], 3⟩]
      ⟨["a", "b"], 0⟩ (by decide) (by decide) (by decide) (by decide) (by decide)⟩

/-- C9 (confirmed): the filesystem root `/` is never in the node list
(the expansion loop stops before it), and consequently whenever the
computed common root is `/`, or some measured directory's immediate
parent is `/`, a positional `list.index` lookup of `/` fails: the run
aborts with an error instead of producing output. -/
theorem fs_root_absent_and_lookup_error (dirs : List Directory) :
    ([] ∉ generate_node_list dirs) ∧
    (dirs ≠ [] →
      (rootSegs dirs = [] ∨ ∃ d ∈ dirs, parentOf d.directory = []) →
      isError (main dirs) = true) := by
  refine ⟨root_not_mem_generate_node_list dirs, ?_⟩
  intro hne hcond
  by_cases hex : ∃ d ∈ dirs, parentOf d.directory = []
  · have herr := build_links_error_of_parent_nil (root_not_mem_generate_node_list dirs) hex
    simp only [main]
    cases hbl : build_links (generate_node_list dirs) dirs with
    | error e => simp [isError]
    | ok l1 => rw [hbl] at herr; simp [isError] at herr
  · have hroot : rootSegs dirs = [] := by
      rcases hcond with h | h
      · exact h
      · exact absurd h hex
    obtain ⟨d0, hd0⟩ := List.exists_mem_of_ne_nil dirs hne
    push_neg at hex
    have hd0p : parentOf d0.directory ≠ [] := hex d0 hd0
    cases hdd : d0.directory with
    | nil => exact absurd (by rw [hdd]; rfl) hd0p
    | cons x xs =>
      cases xs with
      | nil => exact absurd (by rw [hdd]; rfl) hd0p
      | cons y ys =>
        have hxmem : [x] ∈ generate_node_list dirs :=
          mem_generate_node_list.mpr (Or.inr ⟨d0, hd0,
            mem_permutate_path.mpr ⟨by simp, by rw [hdd]; exact ⟨y :: ys, rfl⟩⟩⟩)
        have hmemf : [x] ∈ (generate_node_list dirs).filter
            (fun n => parentOf n == rootSegs dirs) := by
          refine List.mem_filter.mpr ⟨hxmem, ?_⟩
          simp [parentOf, hroot]
        have hrootidx : indexOfP (rootSegs dirs) (generate_node_list dirs) = none := by
          rw [hroot]
          exact indexOfP_none.mpr (root_not_mem_generate_node_list dirs)
        have hfne : (generate_node_list dirs).filter
            (fun n => parentOf n == rootSegs dirs) ≠ [] :=
          List.ne_nil_of_mem hmemf
        simp only [main]
        cases hbl : build_links (generate_node_list dirs) dirs with
        | error e => simp [isError]
        | ok l1 =>
          have herr2 := build_root_links_error_head
            (aggGo (generate_node_list dirs) dirs).1 hrootidx hfne
          cases hbr : build_root_links (generate_node_list dirs)
              (aggGo (generate_node_list dirs) dirs).1 (rootSegs dirs)
              ((generate_node_list dirs).filter (fun n => parentOf n == rootSegs dirs)) with
          | error e => simp [isError]
          | ok l2 => rw [hbr] at herr2; simp [isError] at herr2

theorem fs_root_absent_and_lookup_error_wit :
    ([] ∉ generate_node_list [⟨["a"], 5⟩]) ∧ isError (main [⟨["a"], 5⟩]) = true :=
  ⟨(fs_root_absent_and_lookup_error [⟨["a"], 5⟩]).1,
    (fs_root_absent_and_lookup_error [⟨["a"], 5⟩]).2 (by decide)
      (Or.inr ⟨⟨["a"], 5⟩, by decide, by decide⟩)⟩

end Damply
